import Mathlib

/-!
Shallow embedding of the core of the `boilmaster` repository, covering:

* `src/search/search.rs` — the `Search::search` pipeline: limit clamping,
  per-sheet fan-out, error aggregation, sorting, truncation and the
  "more results" signal;
* `src/version/manager.rs` — the version manager state machine: `hydrate`,
  `update` and `set_names`, together with the persisted-file/broadcast
  ordering;
* `src/http/column_filter.rs` — the `ColumnFilter` type, its `merge`
  operation and the nom-based column grammar;
* `src/search/version.rs` — the sheet-name escaping used for per-index
  directories.

Machine integers (`u32`) are modelled as `Nat`, with an explicit
`% 2^32` wherever the source performs unchecked `u32` arithmetic that can
overflow.  Fallible Rust paths (`Result`, `todo!()` panics) are modelled
with `Except` / `Option`.
-/

namespace Boilmaster

/-! ## Search pipeline (`src/search/search.rs`) -/

/-- Modulus of Rust's `u32` type. -/
def U32_MOD : Nat := 2 ^ 32

/-- `PaginationConfig` from `search.rs` (`limit_default`, `limit_max`,
both `u32`, modelled as `Nat` values below `U32_MOD`). -/
structure PaginationConfig where
  limit_default : Nat
  limit_max : Nat
deriving DecidableEq, Repr

/-- `SearchResult` from `search.rs`.  The Rust `score` is an `f32` used only
through comparisons; it is modelled as an `Int` (floats compare totally on
the non-NaN values the index produces, and the pipeline never computes with
them). `row_id : u32` and `subrow_id : u16` are modelled as `Nat`. -/
structure SearchResult where
  score : Int
  sheet : String
  row_id : Nat
  subrow_id : Nat
deriving DecidableEq, Repr

/-- The search error enum.  `Failure` and `QuerySchemaMismatch` appear
explicitly in `search.rs`; the remaining variants are
Modelled from the spec: §7 lists the other error kinds (`Invalid`,
`NotReady`) of the search error type, whose definition file is not part of
the sources. -/
inductive SError where
  | Failure (msg : String)
  | QuerySchemaMismatch (msg : String)
  | Invalid (msg : String)
  | NotReady (msg : String)
deriving DecidableEq, Repr

/-- Rendering of an error as a warning string (`error.to_string()` in the
fold of `Search::search`).  The exact display format lives outside the
sources; only the fact that a warning string is appended matters here. -/
def SError.display : SError → String
  | .Failure m => m
  | .QuerySchemaMismatch m => m
  | .Invalid m => m
  | .NotReady m => m

/-- Modelled from the spec: §3's `Warnings<T>` utility (a payload paired
with an accumulated warning list); its source file is not part of the
sources. -/
structure Warnings (α : Type) where
  value : α
  warnings : List String
deriving DecidableEq, Repr

def Warnings.new {α : Type} (a : α) : Warnings α := ⟨a, []⟩

def Warnings.map {α β : Type} (w : Warnings α) (f : α → β) : Warnings β :=
  ⟨f w.value, w.warnings⟩

def Warnings.with_warning {α : Type} (w : Warnings α) (s : String) : Warnings α :=
  ⟨w.value, w.warnings ++ [s]⟩

/-- The effective limit computed by `Search::search`:
`limit.unwrap_or(limit_default).min(limit_max)`. -/
def effectiveLimit (cfg : PaginationConfig) (limit : Option Nat) : Nat :=
  min (limit.getD cfg.limit_default) cfg.limit_max

/-- The internal result cap `result_limit = limit + 1`.  The addition is an
unchecked `u32` addition in the source, hence the explicit wrap. -/
def resultLimit (cfg : PaginationConfig) (limit : Option Nat) : Nat :=
  (effectiveLimit cfg limit + 1) % U32_MOD

/-- One step of the `try_fold` in `Search::search`: a successful per-sheet
search pushes its results; `Failure` short-circuits; `QuerySchemaMismatch`
is dropped; any other error is appended to the warnings. -/
def searchFoldStep (acc : Warnings (List (List SearchResult)))
    (result : Except SError (List SearchResult)) :
    Except SError (Warnings (List (List SearchResult))) :=
  match result with
  | .ok results => .ok (acc.map (fun vec => vec ++ [results]))
  | .error (.Failure m) => .error (.Failure m)
  | .error (.QuerySchemaMismatch _) => .ok acc
  | .error e => .ok (acc.with_warning e.display)

/-- The `try_fold` of `Search::search`, generalised over its accumulator so
that intermediate states can be named in theorems. -/
def collectFrom (exec : String → Except SError (List SearchResult))
    (acc : Warnings (List (List SearchResult))) (sheets : List String) :
    Except SError (Warnings (List (List SearchResult))) :=
  sheets.foldlM (fun acc name => searchFoldStep acc (exec name)) acc

/-- The full fan-out fold of `Search::search`, starting from
`Warnings::new(vec![])`. -/
def collectResults (exec : String → Except SError (List SearchResult))
    (sheets : List String) : Except SError (Warnings (List (List SearchResult))) :=
  collectFrom exec (Warnings.new []) sheets

/-- The comparator of `results.sort_by(|a, b| b.score.partial_cmp(&a.score)
.unwrap_or(Ordering::Equal))`: `a` may precede `b` iff `b.score ≤ a.score`
(descending order). -/
def scoreDescBefore (a b : SearchResult) : Prop := b.score ≤ a.score

instance : DecidableRel scoreDescBefore := fun a b =>
  inferInstanceAs (Decidable (b.score ≤ a.score))

/-- Rust's `sort_by` is a stable sort; a stable sort w.r.t. a total
transitive comparator has a unique result, so it is modelled by the stable
`List.insertionSort` with the descending-score comparator. -/
def sortResults (l : List SearchResult) : List SearchResult :=
  l.insertionSort scoreDescBefore

/-- The processing closure at the tail of `Search::search`: flatten the
per-sheet vectors, sort by descending score, compute the "more results"
signal by comparing against the limit, and truncate to the limit. -/
def processResults (limit : Nat) (vec : List (List SearchResult)) :
    List SearchResult × Bool :=
  let results := sortResults vec.flatten
  let more_results := decide (results.length > limit)
  (results.take limit, more_results)

/-- `Search::search`, after the per-version data has been resolved:
parameters are the pagination config, the optional requested limit, the
sheet enumeration (the order in which the `HashSet` filter or the full
sheet list is iterated), and the per-sheet search (normalisation plus
index execution, given the internal result cap).  Returns the
`Warnings<Vec<SearchResult>>` payload together with the internal
`more_results` signal. -/
def searchModel (cfg : PaginationConfig) (limitOpt : Option Nat)
    (sheets : List String)
    (provider : String → Nat → Except SError (List SearchResult)) :
    Except SError (Warnings (List SearchResult) × Bool) :=
  match collectResults (fun name => provider name (resultLimit cfg limitOpt)) sheets with
  | .error e => .error e
  | .ok collected =>
      let processed := processResults (effectiveLimit cfg limitOpt) collected.value
      .ok (⟨processed.1, collected.warnings⟩, processed.2)

/-! ## Version manager (`src/version/manager.rs`)

`HashMap` / `BTreeMap` state is modelled as association lists (the Rust
maps have unique keys; `assocInsert` replaces in place, `assocErase`
removes the entry, mirroring `HashMap::insert` / `HashMap::remove`). -/

def assocLookup {α β : Type} [DecidableEq α] : List (α × β) → α → Option β
  | [], _ => none
  | (k, v) :: rest, key => if k = key then some v else assocLookup rest key

def assocInsert {α β : Type} [DecidableEq α] : List (α × β) → α → β → List (α × β)
  | [], key, val => [(key, val)]
  | (k, v) :: rest, key, val =>
      if k = key then (key, val) :: rest else (k, v) :: assocInsert rest key val

def assocErase {α β : Type} [DecidableEq α] : List (α × β) → α → List (α × β)
  | [], _ => []
  | (k, v) :: rest, key => if k = key then rest else (k, v) :: assocErase rest key

/-- `VersionKey`: an opaque content-addressed identifier, modelled as `Nat`. -/
abbrev VKey := Nat

/-- `Version`: an ordered collection of repositories, each a name with its
(non-empty, in reality) ordered patch list.  Only construction and equality
matter to the manager, so patches are modelled by their path strings. -/
abbrev Ver := List (String × List String)

/-- `PersistedMetadata` from `manager.rs`: the catalog file contents. -/
structure PersistedMetadata where
  versions : List VKey
  names : List (String × VKey)
deriving DecidableEq, Repr

/-- Observable effects of a manager pass, in program order: successful
persistence of a version file, successful persistence of the catalog, and
a broadcast of the current key list on the watch channel. -/
inductive MEvent where
  | persistVersion (key : VKey)
  | persistMetadata
  | broadcast (keys : List VKey)
deriving DecidableEq, Repr

/-- Manager state: the `versions` and `names` maps, the set of version
files on disk (with contents), and the last value sent on the watch
channel. -/
structure MgrState where
  versions : List (VKey × Ver)
  names : List (String × VKey)
  disk : List (VKey × Ver)
  channel : List VKey
deriving DecidableEq, Repr

/-- `Manager::broadcast`: collect the current key list and
`send_if_modified` on the watch channel. -/
def broadcastStep (st : MgrState) : MgrState × List MEvent :=
  let keys := st.versions.map Prod.fst
  if keys ≠ st.channel then ({ st with channel := keys }, [.broadcast keys])
  else (st, [])

/-- The version-hydration loop of `Manager::hydrate`: for each key listed
in the catalog, read its file; failures are skipped. -/
def hydrateVersions (disk : List (VKey × Ver)) (keys : List VKey) : List (VKey × Ver) :=
  keys.foldl
    (fun acc key =>
      match assocLookup disk key with
      | none => acc
      | some ver => assocInsert acc key ver)
    []

/-- The name-reconciliation loop of `Manager::hydrate`: names whose key is
not a hydrated version are dropped. -/
def hydrateNames (versions : List (VKey × Ver)) (entries : List (String × VKey)) :
    List (String × VKey) :=
  entries.foldl
    (fun acc p =>
      if (assocLookup versions p.2).isSome then assocInsert acc p.1 p.2 else acc)
    []

/-- `Manager::hydrate`, run from the empty startup state.  `meta` is the
parsed `metadata.json` (`none` when the file is absent, in which case
hydration returns early); `disk` holds the readable version files.  Version
keys listed in the catalog whose file cannot be read are skipped; names
whose key did not hydrate are dropped; a single broadcast ends hydration. -/
def hydrate (meta : Option PersistedMetadata) (disk : List (VKey × Ver)) :
    MgrState × List MEvent :=
  match meta with
  | none => (⟨[], [], disk, []⟩, [])
  | some m =>
      let versions := hydrateVersions disk m.versions
      broadcastStep ⟨versions, hydrateNames versions m.names, disk, []⟩

/-- One `Manager::update` pass.  `fetched` is the outcome of fetching and
materialising the configured repositories (`try_join_all` over
`fetch_repository`); `keyOf` derives the content-addressed key; `pvOk` /
`pmOk` say whether the two persistence writes succeed.  Returns the new
state, the event trace of the pass, and whether the pass succeeded.

Mirrors the source order: compare-and-insert into `versions`; if nothing
changed, stop; otherwise set the `latest` name, persist the version file
and catalog (both must succeed), then broadcast. -/
def update (st : MgrState) (fetched : Except String Ver) (keyOf : Ver → VKey)
    (pvOk pmOk : Bool) : MgrState × List MEvent × Bool :=
  match fetched with
  | .error _ => (st, [], false)
  | .ok ver =>
      let key := keyOf ver
      let changed := assocLookup st.versions key ≠ some ver
      if changed then
        let versions' := assocInsert st.versions key ver
        let names' := assocInsert st.names "latest" key
        let disk' := if pvOk then assocInsert st.disk key ver else st.disk
        let st' : MgrState := ⟨versions', names', disk', st.channel⟩
        if pvOk && pmOk then
          let br := broadcastStep st'
          (br.1, [.persistVersion key, .persistMetadata] ++ br.2, true)
        else
          (st', [], false)
      else
        (st, [], true)

/-- `Manager::set_names`: drop every name currently pointing at `key`, then
insert each new name pointing at `key`.  The key is not validated against
the `versions` map. -/
def setNames (st : MgrState) (key : VKey) (newNames : List String) : MgrState :=
  let kept := st.names.filter (fun p => p.2 ≠ key)
  { st with names := newNames.foldl (fun acc n => assocInsert acc n key) kept }

/-- The names/versions invariant of the claim: every entry of the names map
points at a key present in the versions map. -/
def MgrInv (st : MgrState) : Prop :=
  ∀ p ∈ st.names, (assocLookup st.versions p.2).isSome

/-! ## Column filter (`src/http/column_filter.rs`)

`StructFilter = HashMap<String, Option<ColumnFilter>>` is modelled as an
association list with unique keys (the `HashMap` representation
invariant); `ArrayFilter = Option<Box<ColumnFilter>>` loses the box. -/

inductive ColumnFilter where
  | Struct (entries : List (String × Option ColumnFilter))
  | Array (child : Option ColumnFilter)
deriving Repr

abbrev StructFilter := List (String × Option ColumnFilter)

mutual

/-- `ColumnFilter::merge`.  The `todo!()` placeholder panic on mismatched
variants is modelled as `none`; a panic deeper in the recursion likewise
propagates as `none`. -/
def ColumnFilter.merge : ColumnFilter → ColumnFilter → Option ColumnFilter
  | .Struct t, .Struct s => (mergeStruct t s).map .Struct
  | .Array (some tf), .Array (some sf) =>
      (ColumnFilter.merge tf sf).map (fun m => .Array (some m))
  | .Array _, .Array _ => some (.Array none)
  | _, _ => none
termination_by _ b => sizeOf b

/-- `merge_struct`: iterate the source entries; for each key, `remove` it
from the target, compute the merged value (`None` dominates; two `Some`s
merge recursively), and re-`insert` it.  On the association-list model
`remove`+`insert` is erase-then-append. -/
def mergeStruct (target : StructFilter) : StructFilter → Option StructFilter
  | [] => some target
  | (key, sv) :: rest =>
      match assocLookup target key, sv with
      | none, _ => mergeStruct (assocErase target key ++ [(key, sv)]) rest
      | some (some tf), some sf =>
          match ColumnFilter.merge tf sf with
          | none => none
          | some m => mergeStruct (assocErase target key ++ [(key, some m)]) rest
      | some _, _ => mergeStruct (assocErase target key ++ [(key, none)]) rest
termination_by s => sizeOf s

end

/-- Outcome of a nom parser: `fail` is a recoverable `nom::Err::Error`
(backtracked by `alt`/`opt`), `panic` models a Rust panic raised while the
parser's `map` closure merges filters, `ok` carries the remaining input. -/
inductive POut (α : Type) where
  | fail
  | panic
  | ok (rem : List Char) (val : α)
deriving Repr

/-- `char::is_ascii_alphanumeric`. -/
def asciiAlnum (c : Char) : Bool :=
  ('a' ≤ c && c ≤ 'z') || ('A' ≤ c && c ≤ 'Z') || ('0' ≤ c && c ≤ '9')

/-- nom `tag`. -/
def ptag (t : List Char) (input : List Char) : POut Unit :=
  if t.isPrefixOf input then .ok (input.drop t.length) () else .fail

/-- nom `take_while1(is_ascii_alphanumeric)` (`field_name`). -/
def fieldName (input : List Char) : POut (List Char) :=
  let pre := input.takeWhile asciiAlnum
  if pre.isEmpty then .fail else .ok (input.drop pre.length) pre

/-- `Iterator::reduce` over `merge` in `group`'s map closure (`none` when
some merge panicked; the list is non-empty by `separated_list1`). -/
def reduceMerge : List ColumnFilter → Option ColumnFilter
  | [] => none
  | f :: rest => rest.foldlM (fun a b => a.merge b) f

mutual

/-- nom `filter := alt((struct_entry, array_index, delimited("(", group, ")")))`. -/
def pfilter : Nat → List Char → POut ColumnFilter
  | 0, _ => .fail
  | n + 1, input =>
      match pstructEntry n input with
      | .ok rem f => .ok rem f
      | .panic => .panic
      | .fail =>
          match parrayIndex n input with
          | .ok rem f => .ok rem f
          | .panic => .panic
          | .fail =>
              match ptag ['('] input with
              | .fail => .fail
              | .panic => .panic
              | .ok rem _ =>
                  match pgroup n rem with
                  | .ok rem' f =>
                      match ptag [')'] rem' with
                      | .ok rem'' _ => .ok rem'' f
                      | .panic => .panic
                      | .fail => .fail
                  | .panic => .panic
                  | .fail => .fail

/-- nom `struct_entry := map(tuple((field_name, chained_filter)), …)`. -/
def pstructEntry : Nat → List Char → POut ColumnFilter
  | 0, _ => .fail
  | n + 1, input =>
      match fieldName input with
      | .fail => .fail
      | .panic => .panic
      | .ok rem key =>
          match pchained n rem with
          | .ok rem' child => .ok rem' (.Struct [(String.mk key, child)])
          | .panic => .panic
          | .fail => .fail

/-- nom `chained_filter := opt(preceded(".", filter))` (backtracks to
`none` when the dotted filter fails). -/
def pchained : Nat → List Char → POut (Option ColumnFilter)
  | 0, _ => .fail
  | n + 1, input =>
      match ptag ['.'] input with
      | .fail => .ok input none
      | .panic => .panic
      | .ok rem _ =>
          match pfilter n rem with
          | .ok rem' f => .ok rem' (some f)
          | .panic => .panic
          | .fail => .ok input none

/-- nom `array_index := map(tuple(("[]", chained_filter)), …)`. -/
def parrayIndex : Nat → List Char → POut ColumnFilter
  | 0, _ => .fail
  | n + 1, input =>
      match ptag ['[', ']'] input with
      | .fail => .fail
      | .panic => .panic
      | .ok rem _ =>
          match pchained n rem with
          | .ok rem' child => .ok rem' (.Array child)
          | .panic => .panic
          | .fail => .fail

/-- The element list of nom `separated_list1(",", filter)`: a first filter
followed by `("," filter)*`, stopping (without consuming) at the first
failing separator or element. -/
def psepFilters : Nat → List Char → POut (List ColumnFilter)
  | 0, _ => .fail
  | n + 1, input =>
      match pfilter n input with
      | .fail => .fail
      | .panic => .panic
      | .ok rem f =>
          match psepRest n rem with
          | .ok rem' fs => .ok rem' (f :: fs)
          | .panic => .panic
          | .fail => .fail

/-- The loop of `separated_list1`. -/
def psepRest : Nat → List Char → POut (List ColumnFilter)
  | 0, _ => .fail
  | n + 1, input =>
      match ptag [','] input with
      | .fail => .ok input []
      | .panic => .panic
      | .ok rem _ =>
          match pfilter n rem with
          | .fail => .ok input []
          | .panic => .panic
          | .ok rem' f =>
              match psepRest n rem' with
              | .ok rem'' fs => .ok rem'' (f :: fs)
              | .panic => .panic
              | .fail => .fail

/-- nom `group := map(separated_list1(",", filter), |filters| filters
.reduce(merge).unwrap())`; a `todo!()` panic inside a merge aborts the
whole parse. -/
def pgroup : Nat → List Char → POut ColumnFilter
  | 0, _ => .fail
  | n + 1, input =>
      match psepFilters n input with
      | .fail => .fail
      | .panic => .panic
      | .ok rem fs =>
          match reduceMerge fs with
          | some f => .ok rem f
          | none => .panic

end

/-- The `Deserialize` impl for `ColumnFilter`: run `group` on the whole
string and reject trailing input. -/
def columnFilterFromStr (fuel : Nat) (s : String) : POut ColumnFilter :=
  match pgroup fuel s.data with
  | .ok rem f => if rem.isEmpty then .ok [] f else .fail
  | r => r

/-- The `HashMap` representation invariant, recursively: struct keys are
unique and all children are well-formed.  Every Rust `ColumnFilter` value
satisfies this by construction. -/
inductive ColumnFilter.WF : ColumnFilter → Prop
  | struct (t : StructFilter) : (t.map Prod.fst).Nodup →
      (∀ k f, (k, some f) ∈ t → ColumnFilter.WF f) → ColumnFilter.WF (.Struct t)
  | arrayNone : ColumnFilter.WF (.Array none)
  | arraySome (f : ColumnFilter) : ColumnFilter.WF f → ColumnFilter.WF (.Array (some f))

/-! ## Sheet-name escaping (`src/search/version.rs`)

`Version::ingest` derives each per-sheet index directory from
`sheet_name.replace('/', "!DIR!")`. -/

/-- `str::replace('/', "!DIR!")` — a single-`char` pattern, so the
replacement is an independent substitution on each character. -/
def escapeSheetName (s : List Char) : List Char :=
  s.flatMap (fun c => if c = '/' then "!DIR!".data else [c])

/-- The decoding direction: substitute each (leftmost, non-overlapping)
occurrence of the token `!DIR!` back to `/`. -/
def unescapeSheetName : List Char → List Char
  | [] => []
  | c :: rest =>
      if c = '!' ∧ rest.take 4 = "DIR!".data then
        '/' :: unescapeSheetName (rest.drop 4)
      else
        c :: unescapeSheetName rest
termination_by l => l.length
decreasing_by
  · simp only [List.length_cons]
    have := List.length_drop 4 rest
    omega
  · simp [List.length_cons]

/-! ## Supporting lemmas -/

instance : IsTotal SearchResult scoreDescBefore :=
  ⟨fun a b => (le_total b.score a.score).imp id id⟩

instance : IsTrans SearchResult scoreDescBefore :=
  ⟨fun _ _ _ hab hbc => le_trans hbc hab⟩

lemma length_sortResults (l : List SearchResult) : (sortResults l).length = l.length :=
  (List.perm_insertionSort scoreDescBefore l).length_eq

lemma sorted_sortResults (l : List SearchResult) :
    (sortResults l).Pairwise scoreDescBefore :=
  List.sorted_insertionSort scoreDescBefore l

/-! ## C10 — the `limit + 1` addition -/

lemma resultLimit_eq_succ (cfg : PaginationConfig) (limitOpt : Option Nat)
    (h : effectiveLimit cfg limitOpt < U32_MOD - 1) :
    resultLimit cfg limitOpt = effectiveLimit cfg limitOpt + 1 := by
  unfold resultLimit U32_MOD at *
  exact Nat.mod_eq_of_lt (by omega)

/-- C10: whenever the clamped effective limit is strictly below
`u32::MAX`, the internal cap `limit + 1` equals the exact successor (the
unchecked `u32` addition does not wrap); with `limit_max` and the
requested limit both `u32::MAX`, the addition wraps to `0`. -/
theorem resultLimit_no_overflow :
    (∀ (cfg : PaginationConfig) (limitOpt : Option Nat),
      effectiveLimit cfg limitOpt < U32_MOD - 1 →
      resultLimit cfg limitOpt = effectiveLimit cfg limitOpt + 1) ∧
    resultLimit ⟨0, U32_MOD - 1⟩ (some (U32_MOD - 1)) = 0 ∧
    effectiveLimit ⟨0, U32_MOD - 1⟩ (some (U32_MOD - 1)) + 1 ≠ 0 :=
  ⟨resultLimit_eq_succ, by decide, by decide⟩

theorem resultLimit_no_overflow_witness :
    effectiveLimit ⟨0, 500⟩ (some 100) < U32_MOD - 1 ∧
    resultLimit ⟨0, 500⟩ (some 100) = effectiveLimit ⟨0, 500⟩ (some 100) + 1 :=
  ⟨by decide, resultLimit_no_overflow.1 ⟨0, 500⟩ (some 100) (by decide)⟩

/-! ## C4 — sheet-name escaping -/

/-- C4 counterexample: the escape is not collision-free on all pairs of
distinct sheet names — `"a/b"` and `"a!DIR!b"` are distinct but escape to
the same directory name. -/
theorem escapeSheetName_collision :
    escapeSheetName ['a', '/', 'b'] = escapeSheetName ['a', '!', 'D', 'I', 'R', '!', 'b'] ∧
    (['a', '/', 'b'] : List Char) ≠ ['a', '!', 'D', 'I', 'R', '!', 'b'] := by
  constructor <;> decide

lemma unescape_escape (s : List Char) (h : '!' ∉ s) :
    unescapeSheetName (escapeSheetName s) = s := by
  induction s with
  | nil => simp [escapeSheetName, unescapeSheetName]
  | cons c rest ih =>
      have hc : c ≠ '!' := fun hcb => h (hcb ▸ List.mem_cons_self c rest)
      have hrest : '!' ∉ rest := fun hm => h (List.mem_cons_of_mem c hm)
      by_cases hslash : c = '/'
      · subst hslash
        have hesc : escapeSheetName ('/' :: rest)
            = '!' :: 'D' :: 'I' :: 'R' :: '!' :: escapeSheetName rest := by
          simp [escapeSheetName]
        rw [hesc, unescapeSheetName]
        simp [ih hrest]
      · have hesc : escapeSheetName (c :: rest) = c :: escapeSheetName rest := by
          simp [escapeSheetName, hslash]
        rw [hesc, unescapeSheetName, if_neg (fun hand => hc hand.1), ih hrest]

/-- C4 amended: the escape is reversible — hence injective — on sheet
names that do not contain the character `'!'` (so, in particular, never
contain the token `!DIR!`); names containing `'!'` can collide. -/
theorem escapeSheetName_injective_on_bang_free
    (x y : List Char) (hx : '!' ∉ x) (hy : '!' ∉ y)
    (h : escapeSheetName x = escapeSheetName y) :
    unescapeSheetName (escapeSheetName x) = x ∧ x = y := by
  refine ⟨unescape_escape x hx, ?_⟩
  calc x = unescapeSheetName (escapeSheetName x) := (unescape_escape x hx).symm
    _ = unescapeSheetName (escapeSheetName y) := by rw [h]
    _ = y := unescape_escape y hy

theorem escapeSheetName_injective_witness :
    ('!' ∉ (['I', 't', 'e', 'm', '/', 'A'] : List Char)) ∧
    unescapeSheetName (escapeSheetName ['I', 't', 'e', 'm', '/', 'A'])
      = ['I', 't', 'e', 'm', '/', 'A'] :=
  ⟨by decide, (escapeSheetName_injective_on_bang_free
    ['I', 't', 'e', 'm', '/', 'A'] ['I', 't', 'e', 'm', '/', 'A']
    (by decide) (by decide) rfl).1⟩

/-! ## C1 — limit clamping, internal cap, truncation, "more" signal -/

/-- C1 counterexample: the internal cap is not always `effective limit
+ 1` — with `limit_max` and the requested limit both `u32::MAX`, the
unchecked `u32` addition wraps, so the cap is `0`, not the successor. -/
theorem searchLimit_cap_counterexample :
    resultLimit ⟨0, U32_MOD - 1⟩ (some (U32_MOD - 1)) ≠
      effectiveLimit ⟨0, U32_MOD - 1⟩ (some (U32_MOD - 1)) + 1 := by
  decide

/-- C1 (amended): for any search whose fan-out fold succeeds, the returned
vector is the sorted internal match list truncated to the effective limit
`min(limit ?? limit_default, limit_max)` (so never more than
effective-limit entries), the "more results" signal is set iff the
internal match count exceeds the effective limit, and — provided the
effective limit is below `u32::MAX` — the internal per-sheet cap is
exactly `effective limit + 1`. -/
theorem searchModel_limit_contract (cfg : PaginationConfig) (limitOpt : Option Nat)
    (sheets : List String)
    (provider : String → Nat → Except SError (List SearchResult))
    (collected : Warnings (List (List SearchResult)))
    (hc : collectResults (fun name => provider name (resultLimit cfg limitOpt)) sheets
      = .ok collected) :
    searchModel cfg limitOpt sheets provider =
      .ok (⟨(sortResults collected.value.flatten).take (effectiveLimit cfg limitOpt),
            collected.warnings⟩,
           decide (effectiveLimit cfg limitOpt < collected.value.flatten.length)) ∧
    ((sortResults collected.value.flatten).take (effectiveLimit cfg limitOpt)).length
      ≤ effectiveLimit cfg limitOpt ∧
    (effectiveLimit cfg limitOpt < U32_MOD - 1 →
      resultLimit cfg limitOpt = effectiveLimit cfg limitOpt + 1) := by
  refine ⟨?_, List.length_take_le _ _, resultLimit_eq_succ cfg limitOpt⟩
  unfold searchModel
  rw [hc]
  simp only [processResults, length_sortResults]

/-- W1: the C1 contract at a concrete search: default limit 2 clamped by
requested limit 1, one sheet, two internal matches: one result returned,
"more" set. -/
def execC1 : String → Nat → Except SError (List SearchResult) := fun n _ =>
  .ok [⟨3, n, 1, 0⟩, ⟨7, n, 2, 0⟩]

theorem searchModel_limit_contract_witness :
    searchModel ⟨2, 5⟩ (some 1) ["s"] execC1 = .ok (⟨[⟨7, "s", 2, 0⟩], []⟩, true) ∧
    ([(⟨7, "s", 2, 0⟩ : SearchResult)]).length ≤ effectiveLimit ⟨2, 5⟩ (some 1) := by
  have h := searchModel_limit_contract ⟨2, 5⟩ (some 1) ["s"] execC1
    ⟨[[⟨3, "s", 1, 0⟩, ⟨7, "s", 2, 0⟩]], []⟩ rfl
  exact ⟨h.1, h.2.1⟩

/-! ## C2 — per-sheet error aggregation -/

lemma collectFrom_append (exec : String → Except SError (List SearchResult))
    (acc : Warnings (List (List SearchResult))) (l1 l2 : List String) :
    collectFrom exec acc (l1 ++ l2) =
      match collectFrom exec acc l1 with
      | .ok acc' => collectFrom exec acc' l2
      | .error e => .error e := by
  unfold collectFrom
  rw [List.foldlM_append]
  cases List.foldlM (fun acc name => searchFoldStep acc (exec name)) acc l1 <;> rfl

lemma collectFrom_cons (exec : String → Except SError (List SearchResult))
    (acc : Warnings (List (List SearchResult))) (name : String) (post : List String) :
    collectFrom exec acc (name :: post) =
      match searchFoldStep acc (exec name) with
      | .ok acc' => collectFrom exec acc' post
      | .error e => .error e := by
  unfold collectFrom
  rw [List.foldlM_cons]
  cases searchFoldStep acc (exec name) <;> rfl

/-- C2: during fan-out over the selected sheets, once the fold has reached
any sheet `name` with accumulator `acc`: a `Failure` error short-circuits
the whole call with that error; a `QuerySchemaMismatch` is silently
dropped (the fold continues from `acc` unchanged, no warning); every other
error appends a warning and skips the sheet's contribution, without
failing the call. -/
theorem search_error_aggregation
    (exec : String → Except SError (List SearchResult))
    (pre : List String) (name : String) (post : List String)
    (acc : Warnings (List (List SearchResult)))
    (hpre : collectFrom exec (Warnings.new []) pre = .ok acc) :
    (∀ m, exec name = .error (.Failure m) →
      collectResults exec (pre ++ name :: post) = .error (.Failure m)) ∧
    (∀ m, exec name = .error (.QuerySchemaMismatch m) →
      collectResults exec (pre ++ name :: post) = collectFrom exec acc post) ∧
    (∀ e, exec name = .error e → (∀ m, e ≠ SError.Failure m) →
      (∀ m, e ≠ SError.QuerySchemaMismatch m) →
      collectResults exec (pre ++ name :: post) =
        collectFrom exec (acc.with_warning e.display) post) := by
  have hsplit : collectResults exec (pre ++ name :: post)
      = collectFrom exec acc (name :: post) := by
    unfold collectResults
    rw [collectFrom_append, hpre]
  refine ⟨fun m hm => ?_, fun m hm => ?_, fun e he hne hnq => ?_⟩
  · rw [hsplit, collectFrom_cons, hm]
    rfl
  · rw [hsplit, collectFrom_cons, hm]
    rfl
  · rw [hsplit, collectFrom_cons, he]
    cases e with
    | Failure m => exact absurd rfl (hne m)
    | QuerySchemaMismatch m => exact absurd rfl (hnq m)
    | Invalid m => rfl
    | NotReady m => rfl

/-- W2: a concrete per-sheet executor exercising all three aggregation
behaviours. -/
def execC2 : String → Except SError (List SearchResult) := fun n =>
  if n = "bad" then .error (.Failure "boom")
  else if n = "skip" then .error (.QuerySchemaMismatch "q")
  else if n = "warn" then .error (.Invalid "inv")
  else .ok []

theorem search_error_aggregation_witness :
    collectResults execC2 (["ok"] ++ "bad" :: ["x"]) = .error (.Failure "boom") ∧
    collectResults execC2 (["ok"] ++ "skip" :: ["y"]) = collectFrom execC2 ⟨[[]], []⟩ ["y"] ∧
    collectResults execC2 (["ok"] ++ "warn" :: ["y"]) =
      collectFrom execC2 (Warnings.with_warning ⟨[[]], []⟩ (SError.Invalid "inv").display)
        ["y"] := by
  refine ⟨?_, ?_, ?_⟩
  · exact (search_error_aggregation execC2 ["ok"] "bad" ["x"] ⟨[[]], []⟩ rfl).1 "boom" rfl
  · exact (search_error_aggregation execC2 ["ok"] "skip" ["y"] ⟨[[]], []⟩ rfl).2.1 "q" rfl
  · exact (search_error_aggregation execC2 ["ok"] "warn" ["y"] ⟨[[]], []⟩ rfl).2.2
      (SError.Invalid "inv") rfl (fun _ h => SError.noConfusion h)
      (fun _ h => SError.noConfusion h)

/-! ## C8 — result ordering -/

/-- W8: one equal-scored result per sheet; the row id distinguishes the
sheets. -/
def execC8 : String → Nat → Except SError (List SearchResult) := fun n _ =>
  .ok [⟨5, n, if n = "a" then 1 else 2, 0⟩]

/-- C8 counterexample: ties are not broken by `(sheet, row_id, subrow_id)`
— the stable sort keeps the per-sheet concatenation order, which follows
the sheet enumeration order of the `HashSet` filter, so the same search
over the same ingested state returns differently ordered lists for two
enumeration orders of the same sheet set. -/
theorem search_order_counterexample :
    searchModel ⟨10, 10⟩ none ["a", "b"] execC8 =
      .ok (⟨[⟨5, "a", 1, 0⟩, ⟨5, "b", 2, 0⟩], []⟩, false) ∧
    searchModel ⟨10, 10⟩ none ["b", "a"] execC8 =
      .ok (⟨[⟨5, "b", 2, 0⟩, ⟨5, "a", 1, 0⟩], []⟩, false) ∧
    ([⟨5, "a", 1, 0⟩, ⟨5, "b", 2, 0⟩] : List SearchResult)
      ≠ [⟨5, "b", 2, 0⟩, ⟨5, "a", 1, 0⟩] := by
  refine ⟨rfl, rfl, by decide⟩

/-- C8 (amended): the final result list is sorted by descending score (the
sort is stable, so equal scores keep the per-sheet concatenation order,
which follows the sheet enumeration order rather than a canonical key);
the output is a function of the enumeration order, so executions agreeing
on that order agree on the list. -/
theorem search_results_sorted (cfg : PaginationConfig) (limitOpt : Option Nat)
    (sheets : List String)
    (provider : String → Nat → Except SError (List SearchResult))
    (results : List SearchResult) (warns : List String) (more : Bool)
    (h : searchModel cfg limitOpt sheets provider = .ok (⟨results, warns⟩, more)) :
    results.Pairwise scoreDescBefore := by
  unfold searchModel at h
  cases hc : collectResults (fun name => provider name (resultLimit cfg limitOpt)) sheets with
  | error e => rw [hc] at h; exact Except.noConfusion h
  | ok collected =>
      rw [hc] at h
      simp only [processResults] at h
      injection h with h1
      injection h1 with hpair _
      have hres : results = (sortResults collected.value.flatten).take
          (effectiveLimit cfg limitOpt) := by
        have := congrArg Warnings.value hpair
        exact this.symm
      rw [hres]
      exact (sorted_sortResults collected.value.flatten).sublist (List.take_sublist _ _)

theorem search_results_sorted_witness :
    ([⟨5, "b", 2, 0⟩, ⟨5, "a", 1, 0⟩] : List SearchResult).Pairwise scoreDescBefore :=
  search_results_sorted ⟨10, 10⟩ none ["b", "a"] execC8
    [⟨5, "b", 2, 0⟩, ⟨5, "a", 1, 0⟩] [] false rfl

/-! ## Association-list lemmas for the manager model -/

lemma assocLookup_insert_self {α β : Type} [DecidableEq α]
    (l : List (α × β)) (k : α) (v : β) :
    assocLookup (assocInsert l k v) k = some v := by
  induction l with
  | nil => simp [assocInsert, assocLookup]
  | cons hd tl ih =>
      obtain ⟨k', v'⟩ := hd
      by_cases h : k' = k
      · simp [assocInsert, assocLookup, h]
      · simp [assocInsert, assocLookup, h, ih]

lemma assocLookup_insert_ne {α β : Type} [DecidableEq α]
    (l : List (α × β)) (k' : α) (v : β) (k : α) (h : k' ≠ k) :
    assocLookup (assocInsert l k' v) k = assocLookup l k := by
  induction l with
  | nil => simp [assocInsert, assocLookup, h]
  | cons hd tl ih =>
      obtain ⟨k0, v0⟩ := hd
      by_cases h0 : k0 = k'
      · simp [assocInsert, assocLookup, h0, h]
      · simp only [assocInsert, if_neg h0]
        by_cases h1 : k0 = k
        · simp [assocLookup, h1]
        · simp [assocLookup, h1, ih]

lemma assocLookup_insert_isSome {α β : Type} [DecidableEq α]
    (l : List (α × β)) (k' : α) (v : β) (k : α)
    (h : (assocLookup l k).isSome) :
    (assocLookup (assocInsert l k' v) k).isSome := by
  by_cases hk : k' = k
  · subst hk
    rw [assocLookup_insert_self]
    rfl
  · rwa [assocLookup_insert_ne _ _ _ _ hk]

lemma mem_assocInsert {α β : Type} [DecidableEq α]
    (l : List (α × β)) (k : α) (v : β) :
    ∀ p ∈ assocInsert l k v, p ∈ l ∨ p = (k, v) := by
  induction l with
  | nil =>
      intro p h
      simpa [assocInsert] using h
  | cons hd tl ih =>
      obtain ⟨k', v'⟩ := hd
      intro p h
      by_cases hk : k' = k
      · simp only [assocInsert, if_pos hk, List.mem_cons] at h
        rcases h with h | h
        · right; exact h
        · left; exact List.mem_cons_of_mem _ h
      · simp only [assocInsert, if_neg hk, List.mem_cons] at h
        rcases h with h | h
        · left; exact h ▸ List.mem_cons_self _ _
        · rcases ih p h with h' | h'
          · left; exact List.mem_cons_of_mem _ h'
          · right; exact h'

lemma broadcastStep_state (st : MgrState) :
    (broadcastStep st).1.versions = st.versions ∧
    (broadcastStep st).1.names = st.names ∧
    (broadcastStep st).1.disk = st.disk := by
  simp only [broadcastStep]
  split <;> exact ⟨rfl, rfl, rfl⟩

lemma hydrateNames_aux {versions : List (VKey × Ver)} :
    ∀ (entries : List (String × VKey)) (init : List (String × VKey)),
    (∀ p ∈ init, (assocLookup versions p.2).isSome) →
    ∀ p ∈ entries.foldl
      (fun acc p => if (assocLookup versions p.2).isSome then assocInsert acc p.1 p.2 else acc)
      init,
    (assocLookup versions p.2).isSome := by
  intro entries
  induction entries with
  | nil => exact fun init hinit p hp => hinit p hp
  | cons q rest ih =>
      intro init hinit p hp
      simp only [List.foldl_cons] at hp
      by_cases hq : (assocLookup versions q.2).isSome
      · rw [if_pos hq] at hp
        refine ih _ (fun r hr => ?_) p hp
        rcases mem_assocInsert init q.1 q.2 r hr with h | h
        · exact hinit r h
        · rw [h]; exact hq
      · rw [if_neg hq] at hp
        exact ih _ hinit p hp

lemma hydrateNames_inv (versions : List (VKey × Ver)) (entries : List (String × VKey)) :
    ∀ p ∈ hydrateNames versions entries, (assocLookup versions p.2).isSome :=
  hydrateNames_aux entries [] (fun p hp => absurd hp (List.not_mem_nil p))

lemma setNames_fold_mem (key : VKey) :
    ∀ (newNames : List String) (init : List (String × VKey)) (p : String × VKey),
    p ∈ newNames.foldl (fun acc n => assocInsert acc n key) init → p ∈ init ∨ p.2 = key := by
  intro ns
  induction ns with
  | nil => exact fun init p hp => Or.inl hp
  | cons n rest ih =>
      intro init p hp
      simp only [List.foldl_cons] at hp
      rcases ih _ p hp with h | h
      · rcases mem_assocInsert init n key p h with h' | h'
        · exact Or.inl h'
        · right; rw [h']
      · exact Or.inr h

/-! ## C3 — the names/versions invariant -/

/-- C3 counterexample: `set_names` does not validate its key, so calling
it with a key absent from the versions map (here: key 5 on the empty
hydrated state) leaves a name pointing at a non-existent version. -/
theorem setNames_inv_counterexample :
    assocLookup (setNames (hydrate none []).1 5 ["foo"]).names "foo" = some 5 ∧
    assocLookup (setNames (hydrate none []).1 5 ["foo"]).versions 5 = none ∧
    ¬ MgrInv (setNames (hydrate none []).1 5 ["foo"]) := by
  refine ⟨rfl, rfl, fun hinv => ?_⟩
  have h := hinv ("foo", 5) (by decide)
  exact absurd h (by decide)

/-- C3 (amended): the names-point-into-versions invariant holds after
hydration reconciliation and is preserved by every `update` pass; it is
preserved by `set_names` provided the key given to `set_names` is present
in the versions map (the code does not validate the key, so `set_names`
with an unknown key violates it). -/
theorem manager_names_invariant :
    (∀ meta disk, MgrInv (hydrate meta disk).1) ∧
    (∀ st fetched keyOf pvOk pmOk, MgrInv st →
      MgrInv (update st fetched keyOf pvOk pmOk).1) ∧
    (∀ st key newNames, MgrInv st → (assocLookup st.versions key).isSome →
      MgrInv (setNames st key newNames)) := by
  refine ⟨fun meta disk => ?_, fun st fetched keyOf pvOk pmOk hInv => ?_,
    fun st key newNames hInv hkey => ?_⟩
  · cases meta with
    | none => exact fun p hp => absurd hp (List.not_mem_nil p)
    | some m =>
        simp only [hydrate]
        intro p hp
        rw [(broadcastStep_state _).1]
        rw [(broadcastStep_state _).2.1] at hp
        exact hydrateNames_inv _ _ p hp
  · cases fetched with
    | error e => exact hInv
    | ok ver =>
        simp only [update]
        by_cases hch : assocLookup st.versions (keyOf ver) ≠ some ver
        · rw [if_pos hch]
          have hcore : ∀ p ∈ assocInsert st.names "latest" (keyOf ver),
              (assocLookup (assocInsert st.versions (keyOf ver) ver) p.2).isSome := by
            intro p hp
            rcases mem_assocInsert st.names "latest" (keyOf ver) p hp with h | h
            · exact assocLookup_insert_isSome _ _ _ _ (hInv p h)
            · rw [h]
              simp only
              rw [assocLookup_insert_self]
              rfl
          by_cases hpp : (pvOk && pmOk) = true
          · rw [if_pos hpp]
            intro p hp
            rw [(broadcastStep_state _).1]
            rw [(broadcastStep_state _).2.1] at hp
            exact hcore p hp
          · rw [if_neg hpp]
            exact hcore
        · rw [if_neg hch]
          exact hInv
  · intro p hp
    simp only [setNames] at hp
    rcases setNames_fold_mem key newNames _ p hp with h | h
    · exact hInv p (List.mem_of_mem_filter h)
    · rw [h]; exact hkey

theorem manager_names_invariant_witness :
    MgrInv (hydrate (some ⟨[1], [("latest", 1)]⟩) [(1, [("g", ["p"])])]).1 ∧
    MgrInv (setNames (hydrate (some ⟨[1], [("latest", 1)]⟩) [(1, [("g", ["p"])])]).1
      1 ["stable"]) := by
  constructor
  · exact manager_names_invariant.1 (some ⟨[1], [("latest", 1)]⟩) [(1, [("g", ["p"])])]
  · exact manager_names_invariant.2.2 _ 1 ["stable"]
      (manager_names_invariant.1 (some ⟨[1], [("latest", 1)]⟩) [(1, [("g", ["p"])])])
      (by decide)

/-! ## C9 — the `latest` name -/

lemma hydrateNames_fold_no_key {versions : List (VKey × Ver)} :
    ∀ (entries : List (String × VKey)) (init : List (String × VKey)) (nm : String),
    (∀ p ∈ entries, p.1 ≠ nm) →
    assocLookup
      (entries.foldl
        (fun acc p => if (assocLookup versions p.2).isSome then assocInsert acc p.1 p.2 else acc)
        init) nm
      = assocLookup init nm := by
  intro entries
  induction entries with
  | nil => exact fun init nm _ => rfl
  | cons q rest ih =>
      intro init nm hne
      simp only [List.foldl_cons]
      rw [ih _ nm (fun p hp => hne p (List.mem_cons_of_mem q hp))]
      by_cases hq : (assocLookup versions q.2).isSome
      · rw [if_pos hq, assocLookup_insert_ne _ _ _ _ (hne q (List.mem_cons_self q rest))]
      · rw [if_neg hq]

lemma hydrateNames_lookup {versions : List (VKey × Ver)} :
    ∀ (entries : List (String × VKey)) (nm : String) (k : VKey),
    (nm, k) ∈ entries → (entries.map Prod.fst).Nodup →
    (assocLookup versions k).isSome →
    ∀ init,
    assocLookup
      (entries.foldl
        (fun acc p => if (assocLookup versions p.2).isSome then assocInsert acc p.1 p.2 else acc)
        init) nm
      = some k := by
  intro entries
  induction entries with
  | nil => exact fun nm k hmem => absurd hmem (List.not_mem_nil _)
  | cons q rest ih =>
      intro nm k hmem hnd hk init
      rcases List.mem_cons.mp hmem with heq | hmem'
      · subst heq
        simp only [List.foldl_cons, if_pos hk]
        have hrest : ∀ p ∈ rest, p.1 ≠ nm := by
          intro p hp hpeq
          have : nm ∈ rest.map Prod.fst := hpeq ▸ List.mem_map_of_mem Prod.fst hp
          exact (List.nodup_cons.mp hnd).1 this
        rw [hydrateNames_fold_no_key rest _ nm hrest, assocLookup_insert_self]
      · simp only [List.foldl_cons]
        exact ih nm k hmem' (List.nodup_cons.mp hnd).2 hk _

/-- C9 counterexample: hydration with a deleted version file (key 2 listed
in the catalog, its file absent) drops the `latest` name while version 1
still hydrates — the versions map is non-empty but `latest` is gone. -/
theorem hydrate_latest_counterexample :
    (hydrate (some ⟨[1, 2], [("latest", 2)]⟩) [(1, [("g", ["p"])])]).1.versions ≠ [] ∧
    assocLookup
      (hydrate (some ⟨[1, 2], [("latest", 2)]⟩) [(1, [("g", ["p"])])]).1.names "latest"
      = none := by
  exact ⟨by decide, rfl⟩

/-- C9 (amended): after an `update` pass that observed a change, the names
map contains `latest` (pointing at the fetched version's key); after
hydration, `latest` is present when the catalog names `latest` with a key
that hydrated successfully — a deleted version file can instead leave the
versions map non-empty with no `latest` name. -/
theorem manager_latest_tag :
    (∀ st ver keyOf pvOk pmOk, assocLookup st.versions (keyOf ver) ≠ some ver →
      assocLookup (update st (.ok ver) keyOf pvOk pmOk).1.names "latest"
        = some (keyOf ver)) ∧
    (∀ m disk k, (m.names.map Prod.fst).Nodup → ("latest", k) ∈ m.names →
      (assocLookup (hydrateVersions disk m.versions) k).isSome →
      assocLookup (hydrate (some m) disk).1.names "latest" = some k) := by
  constructor
  · intro st ver keyOf pvOk pmOk hch
    simp only [update, if_pos hch]
    by_cases hpp : (pvOk && pmOk) = true
    · rw [if_pos hpp, (broadcastStep_state _).2.1]
      exact assocLookup_insert_self _ _ _
    · rw [if_neg hpp]
      exact assocLookup_insert_self _ _ _
  · intro m disk k hnd hmem hk
    simp only [hydrate]
    rw [(broadcastStep_state _).2.1]
    exact hydrateNames_lookup m.names "latest" k hmem hnd hk []

theorem manager_latest_tag_witness :
    assocLookup
      (update ⟨[], [], [], []⟩ (.ok [("g", ["p"])]) (fun v => v.length) true true).1.names
      "latest" = some 1 ∧
    assocLookup (hydrate (some ⟨[1], [("latest", 1)]⟩) [(1, [("g", ["p"])])]).1.names
      "latest" = some 1 :=
  ⟨manager_latest_tag.1 ⟨[], [], [], []⟩ [("g", ["p"])] (fun v => v.length) true true
      (by decide),
   manager_latest_tag.2 ⟨[1], [("latest", 1)]⟩ [(1, [("g", ["p"])])] 1
      (by decide) (by decide) (by decide)⟩

/-! ## C5 — persistence before broadcast -/

/-- C5 counterexample: pass 1 fetches version `v1` (key 1) but its
persistence fails — nothing is broadcast, yet key 1 stays in the versions
map with no file on disk.  Pass 2 fetches `v2` (key 2), persists it and
broadcasts `[1, 2]`: key 1 is broadcast although its version file does
not exist on disk. -/
theorem update_broadcast_counterexample :
    (update ⟨[], [], [], []⟩ (.ok [("g", ["p"])]) (fun v => v.length) false true).2.1
      = [] ∧
    MEvent.broadcast [1, 2] ∈
      (update (update ⟨[], [], [], []⟩ (.ok [("g", ["p"])]) (fun v => v.length) false
          true).1
        (.ok [("g", ["p"]), ("h", ["q"])]) (fun v => v.length) true true).2.1 ∧
    (1 : VKey) ∈ [1, 2] ∧
    assocLookup
      (update (update ⟨[], [], [], []⟩ (.ok [("g", ["p"])]) (fun v => v.length) false
          true).1
        (.ok [("g", ["p"]), ("h", ["q"])]) (fun v => v.length) true true).1.disk 1
      = none := by
  refine ⟨rfl, by decide, by decide, rfl⟩

/-- C5 (amended): within one `update` pass, any broadcast happens only
after both persistence writes succeeded — in the event trace every
broadcast is preceded by the successful version-file and catalog writes,
and the fetched version's file is on disk in the resulting state; if
either persistence write fails, the pass emits no event at all (in
particular nothing is broadcast).  The original claim's corollary that
every broadcast *key* has its file on disk fails across passes (see the
counterexample). -/
theorem update_persist_before_broadcast (st : MgrState) (fetched : Except String Ver)
    (keyOf : Ver → VKey) (pvOk pmOk : Bool) :
    (∀ ks, MEvent.broadcast ks ∈ (update st fetched keyOf pvOk pmOk).2.1 →
      pvOk = true ∧ pmOk = true ∧
      ∃ ver, fetched = .ok ver ∧
        (assocLookup (update st fetched keyOf pvOk pmOk).1.disk (keyOf ver)).isSome ∧
        ∃ l1 l2, (update st fetched keyOf pvOk pmOk).2.1
            = l1 ++ MEvent.broadcast ks :: l2 ∧
          MEvent.persistVersion (keyOf ver) ∈ l1 ∧ MEvent.persistMetadata ∈ l1) ∧
    ((pvOk = false ∨ pmOk = false) → (update st fetched keyOf pvOk pmOk).2.1 = []) := by
  cases fetched with
  | error e =>
      simp only [update]
      exact ⟨fun ks hks => absurd hks (List.not_mem_nil _), fun _ => by trivial⟩
  | ok ver =>
      simp only [update]
      by_cases hch : assocLookup st.versions (keyOf ver) ≠ some ver
      · rw [if_pos hch]
        by_cases hpp : (pvOk && pmOk) = true
        · rw [if_pos hpp]
          have hpp' := hpp
          rw [Bool.and_eq_true] at hpp'
          obtain ⟨hpv, hpm⟩ := hpp'
          subst hpv hpm
          constructor
          · intro ks hks
            refine ⟨rfl, rfl, ver, rfl, ?_, ?_⟩
            · rw [(broadcastStep_state _).2.2]
              simp [assocLookup_insert_self]
            · simp only [broadcastStep] at hks ⊢
              by_cases hbc : List.map Prod.fst (assocInsert st.versions (keyOf ver) ver)
                  ≠ st.channel
              · simp only [if_pos hbc] at hks ⊢
                rcases List.mem_cons.mp hks with h | h
                · exact absurd h (by simp)
                · rcases List.mem_cons.mp h with h' | h'
                  · exact absurd h' (by simp)
                  · rcases List.mem_cons.mp h' with h'' | h''
                    · refine ⟨[MEvent.persistVersion (keyOf ver), MEvent.persistMetadata],
                        [], ?_, by simp, by simp⟩
                      rw [h'']
                    · exact absurd h'' (List.not_mem_nil _)
              · simp only [if_neg hbc] at hks
                rcases List.mem_cons.mp hks with h | h
                · exact absurd h (by simp)
                · rcases List.mem_cons.mp h with h' | h'
                  · exact absurd h' (by simp)
                  · exact absurd h' (List.not_mem_nil _)
          · intro hfail
            rcases hfail with h | h <;> exact Bool.noConfusion h
        · rw [if_neg hpp]
          exact ⟨fun ks hks => absurd hks (List.not_mem_nil _), fun _ => by trivial⟩
      · rw [if_neg hch]
        exact ⟨fun ks hks => absurd hks (List.not_mem_nil _), fun _ => by trivial⟩

theorem update_persist_before_broadcast_witness :
    true = true ∧ true = true ∧
    ∃ ver, (Except.ok [("g", ["p"])] : Except String Ver) = .ok ver ∧
      (assocLookup
        (update ⟨[], [], [], []⟩ (.ok [("g", ["p"])]) (fun v => v.length) true
          true).1.disk ((fun v : Ver => v.length) ver)).isSome ∧
      ∃ l1 l2,
        (update ⟨[], [], [], []⟩ (.ok [("g", ["p"])]) (fun v => v.length) true true).2.1
          = l1 ++ MEvent.broadcast [1] :: l2 ∧
        MEvent.persistVersion ((fun v : Ver => v.length) ver) ∈ l1 ∧
        MEvent.persistMetadata ∈ l1 :=
  (update_persist_before_broadcast ⟨[], [], [], []⟩ (.ok [("g", ["p"])])
    (fun v => v.length) true true).1 [1] (by decide)

/-! ## C6 / C7 — column-filter merge: supporting lemmas -/

lemma assocLookup_mem {α β : Type} [DecidableEq α] :
    ∀ (l : List (α × β)) (k : α) (v : β), assocLookup l k = some v → (k, v) ∈ l := by
  intro l
  induction l with
  | nil => intro k v h; cases h
  | cons hd tl ih =>
      intro k v h
      obtain ⟨k0, v0⟩ := hd
      by_cases h0 : k0 = k
      · subst h0
        simp only [assocLookup, if_pos rfl] at h
        injection h with h
        subst h
        exact List.mem_cons_self _ _
      · simp only [assocLookup, if_neg h0] at h
        exact List.mem_cons_of_mem _ (ih k v h)

lemma mem_assocErase {α β : Type} [DecidableEq α] :
    ∀ (l : List (α × β)) (k : α) (p : α × β), p ∈ assocErase l k → p ∈ l := by
  intro l
  induction l with
  | nil => intro k p h; cases h
  | cons hd tl ih =>
      intro k p h
      obtain ⟨k0, v0⟩ := hd
      by_cases h0 : k0 = k
      · simp only [assocErase, if_pos h0] at h
        exact List.mem_cons_of_mem _ h
      · simp only [assocErase, if_neg h0] at h
        rcases List.mem_cons.mp h with h | h
        · exact h ▸ List.mem_cons_self _ _
        · exact List.mem_cons_of_mem _ (ih k p h)

lemma keys_assocErase_nodup {α β : Type} [DecidableEq α] :
    ∀ (l : List (α × β)) (k : α), (l.map Prod.fst).Nodup →
    ((assocErase l k).map Prod.fst).Nodup := by
  intro l
  induction l with
  | nil => intro k _; simp [assocErase]
  | cons hd tl ih =>
      intro k hnd
      obtain ⟨k0, v0⟩ := hd
      rw [List.map_cons, List.nodup_cons] at hnd
      by_cases h0 : k0 = k
      · simp only [assocErase, if_pos h0]
        exact hnd.2
      · simp only [assocErase, if_neg h0, List.map_cons, List.nodup_cons]
        refine ⟨fun hm => hnd.1 ?_, ih k hnd.2⟩
        rcases List.mem_map.mp hm with ⟨p, hp, hpe⟩
        have hmem : p.1 ∈ tl.map Prod.fst :=
          List.mem_map_of_mem Prod.fst (mem_assocErase tl k p hp)
        rwa [hpe] at hmem

lemma not_mem_keys_assocErase {α β : Type} [DecidableEq α] :
    ∀ (l : List (α × β)) (k : α), (l.map Prod.fst).Nodup →
    k ∉ (assocErase l k).map Prod.fst := by
  intro l
  induction l with
  | nil => intro k _; simp [assocErase]
  | cons hd tl ih =>
      intro k hnd
      obtain ⟨k0, v0⟩ := hd
      rw [List.map_cons, List.nodup_cons] at hnd
      by_cases h0 : k0 = k
      · simp only [assocErase, if_pos h0]
        exact h0 ▸ hnd.1
      · simp only [assocErase, if_neg h0, List.map_cons]
        intro hm
        rcases List.mem_cons.mp hm with h | h
        · exact h0 h.symm
        · exact ih k hnd.2 h

lemma sizeOf_lt_of_mem_struct :
    ∀ (s : StructFilter) (k : String) (sf : ColumnFilter),
    (k, some sf) ∈ s → sizeOf sf < sizeOf (ColumnFilter.Struct s) := by
  intro s
  induction s with
  | nil => intro k sf h; cases h
  | cons hd tl ih =>
      intro k sf h
      rcases List.mem_cons.mp h with h | h
      · subst h
        simp only [ColumnFilter.Struct.sizeOf_spec, List.cons.sizeOf_spec,
          Prod.mk.sizeOf_spec, Option.some.sizeOf_spec]
        omega
      · have := ih k sf h
        rw [ColumnFilter.Struct.sizeOf_spec] at this
        simp only [ColumnFilter.Struct.sizeOf_spec, List.cons.sizeOf_spec]
        omega

/-- The target after one `merge_struct` step (`remove` + `insert` of the
merged value) keeps unique keys and well-formed children. -/
lemma step_target_WF (t : StructFilter) (key : String) (val : Option ColumnFilter)
    (hnd : (t.map Prod.fst).Nodup) (hvt : ∀ k f, (k, some f) ∈ t → f.WF)
    (hval : ∀ f, val = some f → f.WF) :
    ((assocErase t key ++ [(key, val)]).map Prod.fst).Nodup ∧
    (∀ k f, (k, some f) ∈ assocErase t key ++ [(key, val)] → f.WF) := by
  constructor
  · rw [List.map_append]
    refine List.Nodup.append (keys_assocErase_nodup t key hnd)
      (List.nodup_singleton key) ?_
    intro a ha hb
    simp only [List.map_cons, List.map_nil, List.mem_singleton] at hb
    exact not_mem_keys_assocErase t key hnd (hb ▸ ha)
  · intro k f hm
    rcases List.mem_append.mp hm with hm | hm
    · exact hvt k f (mem_assocErase t key _ hm)
    · have heq : (k, some f) = (key, val) := List.mem_singleton.mp hm
      have hv := congrArg Prod.snd heq
      exact hval f hv.symm

/-- `merge_struct` preserves the `HashMap` representation invariant,
assuming the inductive hypothesis for the recursive merges of the source's
children. -/
lemma mergeStruct_WF_aux :
    ∀ (s : StructFilter),
    (∀ (k : String) (sf : ColumnFilter), (k, some sf) ∈ s →
      ∀ (tf c : ColumnFilter), tf.merge sf = some c → tf.WF → sf.WF → c.WF) →
    ∀ (t r : StructFilter),
    mergeStruct t s = some r →
    (t.map Prod.fst).Nodup → (∀ k f, (k, some f) ∈ t → f.WF) →
    (∀ k f, (k, some f) ∈ s → f.WF) →
    (r.map Prod.fst).Nodup ∧ (∀ k f, (k, some f) ∈ r → f.WF) := by
  intro s
  induction s with
  | nil =>
      intro _ t r h hnd hvt _
      rw [mergeStruct.eq_def] at h
      simp only at h
      injection h with h
      subst h
      exact ⟨hnd, hvt⟩
  | cons q rest ih =>
      intro IH t r h hnd hvt hvs
      obtain ⟨key, sv⟩ := q
      rw [mergeStruct.eq_def] at h
      simp only at h
      have IH' : ∀ (k : String) (sf : ColumnFilter), (k, some sf) ∈ rest →
          ∀ (tf c : ColumnFilter), tf.merge sf = some c → tf.WF → sf.WF → c.WF :=
        fun k sf hm => IH k sf (List.mem_cons_of_mem _ hm)
      have hvs' : ∀ k f, (k, some f) ∈ rest → f.WF :=
        fun k f hm => hvs k f (List.mem_cons_of_mem _ hm)
      cases hlk : assocLookup t key with
      | none =>
          rw [hlk] at h
          replace h : mergeStruct (assocErase t key ++ [(key, sv)]) rest = some r := h
          obtain ⟨hnd', hvt'⟩ := step_target_WF t key sv hnd hvt
            (fun f hf => hvs key f (by rw [← hf]; exact List.mem_cons_self _ _))
          exact ih IH' _ r h hnd' hvt' hvs'
      | some tv =>
          rw [hlk] at h
          cases tv with
          | none =>
              replace h : mergeStruct (assocErase t key ++ [(key, none)]) rest = some r := h
              obtain ⟨hnd', hvt'⟩ := step_target_WF t key none hnd hvt
                (fun f hf => Option.noConfusion hf)
              exact ih IH' _ r h hnd' hvt' hvs'
          | some tf =>
              cases sv with
              | none =>
                  replace h : mergeStruct (assocErase t key ++ [(key, none)]) rest
                      = some r := h
                  obtain ⟨hnd', hvt'⟩ := step_target_WF t key none hnd hvt
                    (fun f hf => Option.noConfusion hf)
                  exact ih IH' _ r h hnd' hvt' hvs'
              | some sf =>
                  replace h : (match ColumnFilter.merge tf sf with
                      | none => (none : Option StructFilter)
                      | some m => mergeStruct (assocErase t key ++ [(key, some m)]) rest)
                      = some r := h
                  cases hm : tf.merge sf with
                  | none =>
                      rw [hm] at h
                      replace h : (none : Option StructFilter) = some r := h
                      exact Option.noConfusion h
                  | some m =>
                      rw [hm] at h
                      replace h : mergeStruct (assocErase t key ++ [(key, some m)]) rest
                          = some r := h
                      have hmWF : m.WF :=
                        IH key sf (List.mem_cons_self _ _) tf m hm
                          (hvt key tf (assocLookup_mem t key (some tf) hlk))
                          (hvs key sf (List.mem_cons_self _ _))
                      obtain ⟨hnd', hvt'⟩ := step_target_WF t key (some m) hnd hvt
                        (fun f hf => (Option.some.inj hf) ▸ hmWF)
                      exact ih IH' _ r h hnd' hvt' hvs'

lemma merge_WF_n :
    ∀ (n : Nat) (b a c : ColumnFilter), sizeOf b < n →
    a.merge b = some c → a.WF → b.WF → c.WF := by
  intro n
  induction n with
  | zero => intro b a c h; exact absurd h (Nat.not_lt_zero _)
  | succ n ihn =>
      intro b a c hsz h ha hb
      cases a with
      | Struct t =>
          cases b with
          | Struct s =>
              rw [ColumnFilter.merge.eq_def] at h
              simp only at h
              cases hms : mergeStruct t s with
              | none =>
                  rw [hms] at h
                  exact Option.noConfusion h
              | some r =>
                  rw [hms] at h
                  replace h : some (ColumnFilter.Struct r) = some c := h
                  injection h with h
                  subst h
                  have IH : ∀ (k : String) (sf : ColumnFilter), (k, some sf) ∈ s →
                      ∀ (tf c' : ColumnFilter), tf.merge sf = some c' →
                      tf.WF → sf.WF → c'.WF := by
                    intro k sf hmem tf c' hm htf hsf
                    have hlt := sizeOf_lt_of_mem_struct s k sf hmem
                    exact ihn sf tf c' (by omega) hm htf hsf
                  cases ha with
                  | struct _ hndt hvt =>
                      cases hb with
                      | struct _ hnds hvs =>
                          obtain ⟨hndr, hvr⟩ := mergeStruct_WF_aux s IH t r hms hndt hvt hvs
                          exact ColumnFilter.WF.struct r hndr hvr
          | Array child =>
              rw [ColumnFilter.merge.eq_def] at h
              replace h : (none : Option ColumnFilter) = some c := h
              exact Option.noConfusion h
      | Array child =>
          cases b with
          | Struct s =>
              rw [ColumnFilter.merge.eq_def] at h
              cases child with
              | some tf =>
                  replace h : (none : Option ColumnFilter) = some c := h
                  exact Option.noConfusion h
              | none =>
                  replace h : (none : Option ColumnFilter) = some c := h
                  exact Option.noConfusion h
          | Array child2 =>
              rw [ColumnFilter.merge.eq_def] at h
              cases child with
              | some tf =>
                  cases child2 with
                  | some sf =>
                      simp only at h
                      cases hm : tf.merge sf with
                      | none =>
                          rw [hm] at h
                          exact Option.noConfusion h
                      | some m =>
                          rw [hm] at h
                          replace h : some (ColumnFilter.Array (some m)) = some c := h
                          injection h with h
                          subst h
                          have hsf : sf.WF := by
                            cases hb with
                            | arraySome _ hg => exact hg
                          have htf : tf.WF := by
                            cases ha with
                            | arraySome _ hg => exact hg
                          have hszs : sizeOf sf < n := by
                            rw [ColumnFilter.Array.sizeOf_spec, Option.some.sizeOf_spec]
                              at hsz
                            omega
                          exact ColumnFilter.WF.arraySome m (ihn sf tf m hszs hm htf hsf)
                  | none =>
                      replace h : some (ColumnFilter.Array none) = some c := h
                      injection h with h
                      subst h
                      exact ColumnFilter.WF.arrayNone
              | none =>
                  replace h : some (ColumnFilter.Array none) = some c := h
                  injection h with h
                  subst h
                  exact ColumnFilter.WF.arrayNone

/-- `merge` preserves the `HashMap` representation invariant. -/
lemma merge_WF (a b c : ColumnFilter) (h : a.merge b = some c)
    (ha : a.WF) (hb : b.WF) : c.WF :=
  merge_WF_n (sizeOf b + 1) b a c (Nat.lt_succ_self _) h ha hb

lemma foldlM_merge_WF :
    ∀ (rest : List ColumnFilter) (acc f : ColumnFilter), acc.WF →
    (∀ g ∈ rest, g.WF) →
    rest.foldlM (fun a b => a.merge b) acc = some f → f.WF := by
  intro rest
  induction rest with
  | nil =>
      intro acc f hacc _ h
      rw [List.foldlM_nil] at h
      injection h with h
      exact h ▸ hacc
  | cons b bs ih =>
      intro acc f hacc hall h
      rw [List.foldlM_cons] at h
      cases hm : acc.merge b with
      | none =>
          rw [hm] at h
          replace h : (none : Option ColumnFilter) = some f := h
          exact Option.noConfusion h
      | some mid =>
          rw [hm] at h
          replace h : bs.foldlM (fun a b => a.merge b) mid = some f := h
          exact ih mid f (merge_WF acc b mid hm hacc (hall b (List.mem_cons_self _ _)))
            (fun g hg => hall g (List.mem_cons_of_mem _ hg)) h

lemma reduceMerge_WF (fs : List ColumnFilter) (f : ColumnFilter)
    (hall : ∀ g ∈ fs, g.WF) (h : reduceMerge fs = some f) : f.WF := by
  cases fs with
  | nil =>
      replace h : (none : Option ColumnFilter) = some f := h
      exact Option.noConfusion h
  | cons g rest =>
      replace h : rest.foldlM (fun a b => a.merge b) g = some f := h
      exact foldlM_merge_WF rest g f (hall g (List.mem_cons_self _ _))
        (fun x hx => hall x (List.mem_cons_of_mem _ hx)) h

lemma pstructEntry_WF_step (n : Nat)
    (ihCh : ∀ input rem c, pchained n input = POut.ok rem c →
      ∀ f, c = some f → f.WF) :
    ∀ input rem f, pstructEntry (n + 1) input = POut.ok rem f → f.WF := by
  intro input rem f h
  simp only [pstructEntry] at h
  split at h
  · exact POut.noConfusion h
  · exact POut.noConfusion h
  · rename_i rem1 key
    split at h
    · rename_i rem2 child hch
      injection h with h1 h2
      subst h2
      refine ColumnFilter.WF.struct _ (by simp) ?_
      intro k g hmem
      have heq := List.mem_singleton.mp hmem
      have hc := congrArg Prod.snd heq
      exact ihCh _ _ _ hch g hc.symm
    · exact POut.noConfusion h
    · exact POut.noConfusion h

lemma pchained_WF_step (n : Nat)
    (ihF : ∀ input rem f, pfilter n input = POut.ok rem f → f.WF) :
    ∀ input rem c, pchained (n + 1) input = POut.ok rem c → ∀ f, c = some f → f.WF := by
  intro input rem c h
  simp only [pchained] at h
  split at h
  · injection h with h1 h2
    subst h2
    exact fun f hf => Option.noConfusion hf
  · exact POut.noConfusion h
  · split at h
    · rename_i rem2 g hfil
      injection h with h1 h2
      subst h2
      intro f hf
      injection hf with hgf
      exact hgf ▸ ihF _ _ _ hfil
    · exact POut.noConfusion h
    · injection h with h1 h2
      subst h2
      exact fun f hf => Option.noConfusion hf

lemma parrayIndex_WF_step (n : Nat)
    (ihCh : ∀ input rem c, pchained n input = POut.ok rem c → ∀ f, c = some f → f.WF) :
    ∀ input rem f, parrayIndex (n + 1) input = POut.ok rem f → f.WF := by
  intro input rem f h
  simp only [parrayIndex] at h
  split at h
  · exact POut.noConfusion h
  · exact POut.noConfusion h
  · split at h
    · rename_i rem2 child hch
      injection h with h1 h2
      subst h2
      cases child with
      | none => exact ColumnFilter.WF.arrayNone
      | some g => exact ColumnFilter.WF.arraySome g (ihCh _ _ _ hch g rfl)
    · exact POut.noConfusion h
    · exact POut.noConfusion h

lemma pfilter_WF_step (n : Nat)
    (ihSE : ∀ input rem f, pstructEntry n input = POut.ok rem f → f.WF)
    (ihAI : ∀ input rem f, parrayIndex n input = POut.ok rem f → f.WF)
    (ihG : ∀ input rem f, pgroup n input = POut.ok rem f → f.WF) :
    ∀ input rem f, pfilter (n + 1) input = POut.ok rem f → f.WF := by
  intro input rem f h
  simp only [pfilter] at h
  split at h
  · rename_i rem1 f1 hse
    injection h with h1 h2
    exact h2 ▸ ihSE _ _ _ hse
  · exact POut.noConfusion h
  · split at h
    · rename_i rem1 f1 hai
      injection h with h1 h2
      exact h2 ▸ ihAI _ _ _ hai
    · exact POut.noConfusion h
    · split at h
      · exact POut.noConfusion h
      · exact POut.noConfusion h
      · split at h
        · rename_i rem2 f2 hg
          split at h
          · injection h with h1 h2
            exact h2 ▸ ihG _ _ _ hg
          · exact POut.noConfusion h
          · exact POut.noConfusion h
        · exact POut.noConfusion h
        · exact POut.noConfusion h

lemma psepRest_WF_step (n : Nat)
    (ihF : ∀ input rem f, pfilter n input = POut.ok rem f → f.WF)
    (ihSR : ∀ input rem fs, psepRest n input = POut.ok rem fs → ∀ f ∈ fs, f.WF) :
    ∀ input rem fs, psepRest (n + 1) input = POut.ok rem fs → ∀ f ∈ fs, f.WF := by
  intro input rem fs h
  simp only [psepRest] at h
  split at h
  · injection h with h1 h2
    subst h2
    exact fun f hf => absurd hf (List.not_mem_nil f)
  · exact POut.noConfusion h
  · split at h
    · injection h with h1 h2
      subst h2
      exact fun f hf => absurd hf (List.not_mem_nil f)
    · exact POut.noConfusion h
    · rename_i rem2 g hfil
      split at h
      · rename_i rem3 gs hrest
        injection h with h1 h2
        subst h2
        intro f hf
        rcases List.mem_cons.mp hf with hf | hf
        · exact hf ▸ ihF _ _ _ hfil
        · exact ihSR _ _ _ hrest f hf
      · exact POut.noConfusion h
      · exact POut.noConfusion h

lemma psepFilters_WF_step (n : Nat)
    (ihF : ∀ input rem f, pfilter n input = POut.ok rem f → f.WF)
    (ihSR : ∀ input rem fs, psepRest n input = POut.ok rem fs → ∀ f ∈ fs, f.WF) :
    ∀ input rem fs, psepFilters (n + 1) input = POut.ok rem fs → ∀ f ∈ fs, f.WF := by
  intro input rem fs h
  simp only [psepFilters] at h
  split at h
  · exact POut.noConfusion h
  · exact POut.noConfusion h
  · rename_i rem1 g hfil
    split at h
    · rename_i rem2 gs hrest
      injection h with h1 h2
      subst h2
      intro f hf
      rcases List.mem_cons.mp hf with hf | hf
      · exact hf ▸ ihF _ _ _ hfil
      · exact ihSR _ _ _ hrest f hf
    · exact POut.noConfusion h
    · exact POut.noConfusion h

lemma pgroup_WF_step (n : Nat)
    (ihSL : ∀ input rem fs, psepFilters n input = POut.ok rem fs → ∀ f ∈ fs, f.WF) :
    ∀ input rem f, pgroup (n + 1) input = POut.ok rem f → f.WF := by
  intro input rem f h
  simp only [pgroup] at h
  split at h
  · exact POut.noConfusion h
  · exact POut.noConfusion h
  · rename_i rem1 fs1 hsl
    split at h
    · rename_i g hrm
      injection h with h1 h2
      exact h2 ▸ reduceMerge_WF _ _ (ihSL _ _ _ hsl) hrm
    · exact POut.noConfusion h

/-- Every filter produced by any of the column-grammar parsers satisfies
the `HashMap` representation invariant. -/
lemma parsers_WF :
    ∀ n : Nat,
    (∀ input rem f, pstructEntry n input = POut.ok rem f → f.WF) ∧
    (∀ input rem c, pchained n input = POut.ok rem c → ∀ f, c = some f → f.WF) ∧
    (∀ input rem f, parrayIndex n input = POut.ok rem f → f.WF) ∧
    (∀ input rem f, pfilter n input = POut.ok rem f → f.WF) ∧
    (∀ input rem fs, psepRest n input = POut.ok rem fs → ∀ f ∈ fs, f.WF) ∧
    (∀ input rem fs, psepFilters n input = POut.ok rem fs → ∀ f ∈ fs, f.WF) ∧
    (∀ input rem f, pgroup n input = POut.ok rem f → f.WF) := by
  intro n
  induction n with
  | zero =>
      exact ⟨fun i r f h => POut.noConfusion h, fun i r c h => POut.noConfusion h,
        fun i r f h => POut.noConfusion h, fun i r f h => POut.noConfusion h,
        fun i r fs h => POut.noConfusion h, fun i r fs h => POut.noConfusion h,
        fun i r f h => POut.noConfusion h⟩
  | succ n ih =>
      obtain ⟨ihSE, ihCh, ihAI, ihF, ihSR, ihSL, ihG⟩ := ih
      exact ⟨pstructEntry_WF_step n ihCh, pchained_WF_step n ihF,
        parrayIndex_WF_step n ihCh, pfilter_WF_step n ihSE ihAI ihG,
        psepRest_WF_step n ihF ihSR, psepFilters_WF_step n ihF ihSR,
        pgroup_WF_step n ihSL⟩

lemma mergeStruct_nil (t : StructFilter) : mergeStruct t [] = some t := by
  rw [mergeStruct.eq_def]

lemma mergeStruct_cons (t : StructFilter) (key : String) (sv : Option ColumnFilter)
    (rest : StructFilter) :
    mergeStruct t ((key, sv) :: rest) =
      match assocLookup t key, sv with
      | none, _ => mergeStruct (assocErase t key ++ [(key, sv)]) rest
      | some (some tf), some sf =>
          match ColumnFilter.merge tf sf with
          | none => none
          | some m => mergeStruct (assocErase t key ++ [(key, some m)]) rest
      | some _, _ => mergeStruct (assocErase t key ++ [(key, none)]) rest := by
  rw [mergeStruct.eq_def]

lemma mergeStruct_step_none (t : StructFilter) (key : String) (rest : StructFilter)
    (hlk : assocLookup t key = some none) :
    mergeStruct t ((key, none) :: rest)
      = mergeStruct (assocErase t key ++ [(key, none)]) rest := by
  rw [mergeStruct_cons, hlk]

lemma mergeStruct_step_merge (t : StructFilter) (key : String) (g : ColumnFilter)
    (rest : StructFilter)
    (hlk : assocLookup t key = some (some g))
    (hm : ColumnFilter.merge g g = some g) :
    mergeStruct t ((key, some g) :: rest)
      = mergeStruct (assocErase t key ++ [(key, some g)]) rest := by
  rw [mergeStruct_cons, hlk]
  show (match ColumnFilter.merge g g with
    | none => (none : Option StructFilter)
    | some m => mergeStruct (assocErase t key ++ [(key, some m)]) rest)
    = mergeStruct (assocErase t key ++ [(key, some g)]) rest
  rw [hm]

/-- Walking `merge_struct` over a target that starts with the source
itself rotates each entry (merged with itself) to the back, leaving the
map unchanged. -/
lemma mergeStruct_self_aux :
    ∀ (s done : StructFilter),
    ((s ++ done).map Prod.fst).Nodup →
    (∀ (k : String) (g : ColumnFilter), (k, some g) ∈ s →
      ColumnFilter.merge g g = some g) →
    mergeStruct (s ++ done) s = some (done ++ s) := by
  intro s
  induction s with
  | nil =>
      intro done _ _
      rw [List.nil_append, mergeStruct_nil, List.append_nil]
  | cons q rest ih =>
      intro done hnd hself
      obtain ⟨key, v⟩ := q
      rw [List.cons_append, List.map_cons, List.nodup_cons] at hnd
      obtain ⟨hndkey, hndtail⟩ := hnd
      have hlk : assocLookup (((key, v) :: rest) ++ done) key = some v := by
        rw [List.cons_append]
        simp [assocLookup]
      have her : assocErase (((key, v) :: rest) ++ done) key = rest ++ done := by
        rw [List.cons_append]
        simp [assocErase]
      have hperm : ((rest ++ (done ++ [(key, v)])).map Prod.fst).Nodup := by
        have hp : ((key, v) :: (rest ++ done)).Perm ((rest ++ done) ++ [(key, v)]) :=
          (List.perm_append_singleton _ _).symm
        have hn : (((key, v) :: (rest ++ done)).map Prod.fst).Nodup := by
          rw [List.map_cons, List.nodup_cons]
          exact ⟨hndkey, hndtail⟩
        have := (hp.map Prod.fst).nodup hn
        rwa [List.append_assoc] at this
      have hselfrest : ∀ (k : String) (g : ColumnFilter), (k, some g) ∈ rest →
          ColumnFilter.merge g g = some g :=
        fun k g hm => hself k g (List.mem_cons_of_mem _ hm)
      have hih := ih (done ++ [(key, v)]) hperm hselfrest
      cases v with
      | none =>
          rw [mergeStruct_step_none _ _ _ hlk, her, List.append_assoc, hih]
          simp
      | some g =>
          have hm : ColumnFilter.merge g g = some g :=
            hself key g (List.mem_cons_self _ _)
          rw [mergeStruct_step_merge _ _ _ _ hlk hm, her, List.append_assoc, hih]
          simp

lemma merge_self_n :
    ∀ (n : Nat) (f : ColumnFilter), sizeOf f < n → f.WF →
    ColumnFilter.merge f f = some f := by
  intro n
  induction n with
  | zero => intro f h; exact absurd h (Nat.not_lt_zero _)
  | succ n ihn =>
      intro f hsz hwf
      cases hwf with
      | struct t hnd hvals =>
          have hself : ∀ (k : String) (g : ColumnFilter), (k, some g) ∈ t →
              ColumnFilter.merge g g = some g := by
            intro k g hmem
            have hlt := sizeOf_lt_of_mem_struct t k g hmem
            have hb : sizeOf (ColumnFilter.Struct t) < n + 1 := hsz
            exact ihn g (by omega) (hvals k g hmem)
          have haux := mergeStruct_self_aux t [] (by simpa using hnd) hself
          rw [List.append_nil, List.nil_append] at haux
          rw [ColumnFilter.merge.eq_def]
          show (mergeStruct t t).map ColumnFilter.Struct = some (ColumnFilter.Struct t)
          rw [haux]
          rfl
      | arrayNone =>
          rw [ColumnFilter.merge.eq_def]
      | arraySome g hg =>
          have hszg : sizeOf g < n := by
            have hb : sizeOf (ColumnFilter.Array (some g)) < n + 1 := hsz
            rw [ColumnFilter.Array.sizeOf_spec, Option.some.sizeOf_spec] at hb
            omega
          have hm := ihn g hszg hg
          rw [ColumnFilter.merge.eq_def]
          show (ColumnFilter.merge g g).map (fun m => ColumnFilter.Array (some m))
            = some (ColumnFilter.Array (some g))
          rw [hm]
          rfl

/-- `merge` is idempotent on every filter satisfying the `HashMap`
representation invariant. -/
lemma merge_self (f : ColumnFilter) (h : f.WF) : ColumnFilter.merge f f = some f :=
  merge_self_n (sizeOf f + 1) f (Nat.lt_succ_self _) h

/-- C6: every `ColumnFilter` produced by the column-filter parser (the
`Deserialize` impl running `group` over the whole string) merges with
itself to itself: `merge(f, f) == f`. -/
theorem columnFilter_merge_idempotent
    (fuel : Nat) (s : String) (rem : List Char) (f : ColumnFilter)
    (h : columnFilterFromStr fuel s = POut.ok rem f) :
    ColumnFilter.merge f f = some f := by
  unfold columnFilterFromStr at h
  split at h
  · rename_i rem0 f0 hg
    split at h
    · injection h with h1 h2
      exact h2 ▸ merge_self f0 ((parsers_WF fuel).2.2.2.2.2.2 _ _ _ hg)
    · exact POut.noConfusion h
  · rename_i r hne
    exact absurd h (hne rem f)

theorem columnFilter_merge_idempotent_witness :
    columnFilterFromStr 10 "a" = POut.ok [] (ColumnFilter.Struct [("a", none)]) ∧
    ColumnFilter.merge (ColumnFilter.Struct [("a", none)])
      (ColumnFilter.Struct [("a", none)]) = some (ColumnFilter.Struct [("a", none)]) :=
  ⟨rfl, columnFilter_merge_idempotent 10 "a" [] _ rfl⟩

/-- C7: merging a `Struct` filter with an `Array` filter (either order)
yields no merged filter value — it is the `todo!()` panic — and this is
reachable for the parseable comma-joined input `"a,[]"`: the separated
list parses to a `Struct` and an `Array`, and the fold in `group` then
panics merging them, aborting the parse. -/
theorem columnFilter_merge_mismatch :
    (∀ (t : StructFilter) (a : Option ColumnFilter),
      ColumnFilter.merge (.Struct t) (.Array a) = none ∧
      ColumnFilter.merge (.Array a) (.Struct t) = none) ∧
    psepFilters 9 "a,[]".data
      = POut.ok [] [ColumnFilter.Struct [("a", none)], ColumnFilter.Array none] ∧
    pgroup 10 "a,[]".data = POut.panic := by
  have hmm : ∀ (t : StructFilter) (a : Option ColumnFilter),
      ColumnFilter.merge (.Struct t) (.Array a) = none ∧
      ColumnFilter.merge (.Array a) (.Struct t) = none := by
    intro t a
    constructor
    · rw [ColumnFilter.merge.eq_def]
    · rw [ColumnFilter.merge.eq_def]
      cases a <;> rfl
  refine ⟨hmm, rfl, ?_⟩
  have hred : reduceMerge [ColumnFilter.Struct [("a", none)], ColumnFilter.Array none]
      = none := by
    show [ColumnFilter.Array none].foldlM (fun a b => ColumnFilter.merge a b)
      (ColumnFilter.Struct [("a", none)]) = none
    simp only [List.foldlM_cons, (hmm [("a", none)] none).1]
    rfl
  have hstep : pgroup 10 "a,[]".data
      = (match reduceMerge [ColumnFilter.Struct [("a", none)], ColumnFilter.Array none]
          with
        | some f => POut.ok ([] : List Char) f
        | none => POut.panic) := rfl
  rw [hstep, hred]

end Boilmaster
